/-
Verification of the AURORA ultrasound pipeline core
(src/pipeline/gradcam.py, cnn_predictor.py, ensemble_predictor.py,
dicom_processor.py) via a shallow embedding in Lean 4.

Numeric values are modelled as rationals (ℚ); Python/NumPy NaN is
modelled as the `none` case of `Option ℚ`; a Python exception is the
`Except.error` case of `Except String _`.  External opaque collaborators
(the TensorFlow model, pydicom's VOI-LUT, JPEG/base64 encoders) enter as
function parameters; everything written in the repository itself is
translated directly from the source.
-/
import Mathlib

/-- Python 3 `round` on a non-negative value: round half to even
(banker's rounding), as used in `int(round(...))` in
`compute_gradcam_all` / `compute_gradcam_generator`
(src/pipeline/gradcam.py lines 146 and 191). -/
def pyRound (x : ℚ) : ℤ :=
  if x - ⌊x⌋ < 1/2 then ⌊x⌋
  else if 1/2 < x - ⌊x⌋ then ⌊x⌋ + 1
  else if ⌊x⌋ % 2 = 0 then ⌊x⌋ else ⌊x⌋ + 1

/-- The frame-index sampling shared by `compute_gradcam_all`
(src/pipeline/gradcam.py lines 140-147) and `compute_gradcam_generator`
(lines 186-192):

    n = len(preprocessed_frames)
    if n <= max_frames:
        indices = list(range(n))
    else:
        indices = [int(round(i * (n - 1) / (max_frames - 1))) for i in range(max_frames)]
        indices = sorted(set(indices))

`none` models the `ZeroDivisionError` raised when the else-branch is
taken with `max_frames == 1` (the comprehension then evaluates
`i * (n - 1) / 0`); with `max_frames == 0` the comprehension body never
runs, so no division happens and the result is the empty list.
`sorted(set(indices))` is the strictly sorted list of the distinct
sampled indices, modelled as sorting followed by deduplication.
Python's float arithmetic is modelled by exact rational arithmetic; at
the two endpoints `i = 0` and `i = max_frames - 1` the float quotient
is exact (the products involved are far below 2^53), so the endpoint
values agree with the float computation. -/
def sampleIndices (n maxFrames : ℕ) : Option (List ℕ) :=
  if n ≤ maxFrames then some (List.range n)
  else if maxFrames = 1 then none
  else
    let raw := (List.range maxFrames).map fun i : ℕ =>
      (pyRound (((i : ℚ) * ((n : ℚ) - 1)) / ((maxFrames : ℚ) - 1))).toNat
    some ((raw.insertionSort (· ≤ ·)).dedup)

/-- Per-spatial-position ReLU, `tf.nn.relu` applied elementwise
(src/pipeline/gradcam.py line 61). -/
def reluQ (x : ℚ) : ℚ := max x 0

/-- Maximum of a list of values, modelling `tf.reduce_max` as used on the
post-ReLU heatmap (src/pipeline/gradcam.py line 63).  The heatmap entries
are non-negative after ReLU, so folding from 0 agrees with the true
maximum on any non-empty heatmap; on an empty heatmap `tf.reduce_max`
gives negative infinity and here 0, and both fail the `max_val > 0`
guard, so `compute_heatmap` behaves identically. -/
def maxVal (l : List ℚ) : ℚ := l.foldr max 0

/-- The gradient-weighted sum of activation channels,
`conv_out[0] @ pooled_grads[..., tf.newaxis]` followed by `tf.squeeze`
(src/pipeline/gradcam.py lines 59-60).  `conv` is the activation tensor
with its spatial positions flattened into a list, one channel vector per
position; `w` is the pooled-gradient weight vector. -/
def weightedSum (conv : List (List ℚ)) (w : List ℚ) : List ℚ :=
  conv.map fun row => (List.zipWith (fun a b => a * b) row w).sum

/-- The computational tail of `compute_heatmap`
(src/pipeline/gradcam.py lines 59-67): weighted sum of activation
channels, ReLU, then division by the maximum when it is positive.
The gradient tape and the CNN forward pass are the opaque external
predictor; `conv` and `w` are its outputs (`conv_out[0]` and
`pooled_grads`). -/
def compute_heatmap (conv : List (List ℚ)) (w : List ℚ) : List ℚ :=
  let heatmap := (weightedSum conv w).map reluQ
  let max_val := maxVal heatmap
  if 0 < max_val then heatmap.map fun x => x / max_val else heatmap

/-- One entry of the list returned by `compute_gradcam_all`
(src/pipeline/gradcam.py lines 165-169). -/
structure FrameResult where
  frame_idx : ℕ
  raw_b64 : String
  heatmap_b64 : String
deriving DecidableEq

/-- One item yielded by `compute_gradcam_generator`
(src/pipeline/gradcam.py lines 209-215). -/
structure GenFrameResult where
  frame_idx : ℕ
  raw_b64 : String
  heatmap_b64 : String
  progress : ℕ
  total : ℕ
deriving DecidableEq

/-- Projection of a generator item onto the per-frame fields shared with
the batch mode. -/
def GenFrameResult.core (r : GenFrameResult) : FrameResult :=
  ⟨r.frame_idx, r.raw_b64, r.heatmap_b64⟩

/-- Batch GradCAM, `compute_gradcam_all` (src/pipeline/gradcam.py lines
128-171).  `n` is `len(preprocessed_frames)`.  The per-frame body (lines
152-163: clip the frame to uint8, JPEG/base64-encode it, run the
GradCAM heatmap and encode it) depends only on the sampled index once
the frame array and the grad model are fixed, so it is abstracted by the
two encoder functions `rawEnc` and `heatEnc`, shared verbatim with the
generator version. -/
def compute_gradcam_all (n maxFrames : ℕ) (rawEnc heatEnc : ℕ → String) :
    Option (List FrameResult) :=
  (sampleIndices n maxFrames).map fun indices =>
    indices.map fun idx => ⟨idx, rawEnc idx, heatEnc idx⟩

/-- Progressive GradCAM, `compute_gradcam_generator`
(src/pipeline/gradcam.py lines 174-215): the same sampling and per-frame
body as `compute_gradcam_all`, but yielding each result together with a
1-based progress counter (`enumerate(indices, start=1)`) and the total
number of sampled frames.  The fully-driven generator is modelled as the
list of its yields. -/
def compute_gradcam_generator (n maxFrames : ℕ) (rawEnc heatEnc : ℕ → String) :
    Option (List GenFrameResult) :=
  (sampleIndices n maxFrames).map fun indices =>
    indices.enum.map fun pi => ⟨pi.2, rawEnc pi.2, heatEnc pi.2, pi.1 + 1, indices.length⟩

/-- Python `str.lower` over the underlying character list (the repository
only lowers ASCII strings). -/
def pyLower (s : String) : String := ⟨s.data.map Char.toLower⟩

/-- Python `str.strip`: remove leading and trailing whitespace. -/
def pyStrip (s : String) : String :=
  ⟨((s.data.dropWhile Char.isWhitespace).reverse.dropWhile Char.isWhitespace).reverse⟩

/-- Two strings are case variants of each other when they differ only in
letter case, i.e. they lowercase to the same string. -/
abbrev caseVariant (s t : String) : Prop := pyLower s = pyLower t

/-- Covariate mapping `_previa_to_bin`
(src/pipeline/ensemble_predictor.py lines 37-44):

    v = previa.strip().lower()
    if v in ("yes", "y"): return 1
    if v in ("no", "n"): return 0
    raise ValueError(...)

The raised error (the spec calls it `InvalidCovariateError`) is the
`Except.error` case. -/
def _previa_to_bin (previa : String) : Except String ℤ :=
  if pyLower (pyStrip previa) = "yes" ∨ pyLower (pyStrip previa) = "y" then .ok 1
  else if pyLower (pyStrip previa) = "no" ∨ pyLower (pyStrip previa) = "n" then .ok 0
  else .error "Unrecognized previa value"

/-- The three opaque sklearn models of ensemble.pkl, each mapping the
fixed-order feature row `[number_prior_cs, previa_bin, cnn_prob]` to its
positive-class probability `predict_proba(X)[0][1]`. -/
structure Bundle where
  log_model : ℤ → ℤ → ℚ → ℚ
  rf_model : ℤ → ℤ → ℚ → ℚ
  gb_model : ℤ → ℤ → ℚ → ℚ

/-- Return value of `predict_ensemble`
(src/pipeline/ensemble_predictor.py lines 84-90). -/
structure EnsembleResult where
  ensemble_prob : ℚ
  ensemble_pred : ℤ
  log_prob : ℚ
  rf_prob : ℚ
  gb_prob : ℚ
deriving DecidableEq

/-- Ensemble inference `predict_ensemble`
(src/pipeline/ensemble_predictor.py lines 47-90): map the covariate to a
bit, query the three models on the fixed-order row, average the three
probabilities, and threshold (`int(ensemble_prob >= threshold)`; the
Python default for `threshold` is 0.5). -/
def predict_ensemble (bundle : Bundle) (number_prior_cs : ℤ) (previa : String)
    (cnn_prob : ℚ) (threshold : ℚ) : Except String EnsembleResult :=
  match _previa_to_bin previa with
  | .error e => .error e
  | .ok previa_bin =>
    let log_prob := bundle.log_model number_prior_cs previa_bin cnn_prob
    let rf_prob := bundle.rf_model number_prior_cs previa_bin cnn_prob
    let gb_prob := bundle.gb_model number_prior_cs previa_bin cnn_prob
    let ensemble_prob := (log_prob + rf_prob + gb_prob) / 3
    .ok ⟨ensemble_prob, if threshold ≤ ensemble_prob then 1 else 0,
      log_prob, rf_prob, gb_prob⟩

/-- NumPy `np.nanmean` on a 1-D vector: the mean of the non-NaN entries,
NaN (= `none`) when there are none. -/
def nanmean (probs : List (Option ℚ)) : Option ℚ :=
  let xs := probs.filterMap id
  if xs.length = 0 then none else some (xs.sum / xs.length)

/-- NumPy `np.nanmax` on a 1-D vector: the maximum of the non-NaN
entries, NaN when there are none. -/
def nanmax (probs : List (Option ℚ)) : Option ℚ :=
  match probs.filterMap id with
  | [] => none
  | x :: t => some (t.foldl max x)

/-- NumPy `np.nanmedian` on a 1-D vector: sort the non-NaN entries and
take the middle element (odd count) or the mean of the two middle
elements (even count); NaN when there are none. -/
def nanmedian (probs : List (Option ℚ)) : Option ℚ :=
  let xs := probs.filterMap id
  let s := xs.insertionSort (· ≤ ·)
  if xs.length = 0 then none
  else if xs.length % 2 = 1 then some (s.getD (xs.length / 2) 0)
  else some ((s.getD (xs.length / 2 - 1) 0 + s.getD (xs.length / 2) 0) / 2)

/-- Aggregation `aggregate_probs` (src/pipeline/cnn_predictor.py lines
61-72): empty input gives NaN before any method-name validation, then
the lowercased method name selects a NaN-ignoring reduction, and an
unknown name raises (`ValueError` in the code, `InvalidAggregationMethod`
in the spec), modelled as `Except.error`. -/
def aggregate_probs (probs : List (Option ℚ)) (method : String) :
    Except String (Option ℚ) :=
  if probs.length = 0 then .ok none
  else if pyLower method = "mean" then .ok (nanmean probs)
  else if pyLower method = "max" then .ok (nanmax probs)
  else if pyLower method = "median" then .ok (nanmedian probs)
  else .error "Unknown aggregation method"

/-- Crop margin constants (src/pipeline/dicom_processor.py lines 24-27). -/
def _CROP_TOP : ℕ := 65

/-- Pixels removed from the left edge. -/
def _CROP_LEFT : ℕ := 66

/-- Pixels removed from the right edge. -/
def _CROP_RIGHT : ℕ := 150

/-- Border crop `_crop` (src/pipeline/dicom_processor.py lines 55-65).
A frame is a list of rows; `h, w = img.shape[:2]` with `w` read off the
first row.  The guard `bottom <= top or right <= left` is computed in
(possibly negative) integer arithmetic; when it fires the frame is
returned unchanged, otherwise the slice `img[top:h, left:w-right]` is
taken. -/
def _crop (img : List (List ℚ)) : List (List ℚ) :=
  let h := img.length
  let w := (img.headD []).length
  if (h : ℤ) ≤ (_CROP_TOP : ℤ) ∨ (w : ℤ) - (_CROP_RIGHT : ℤ) ≤ (_CROP_LEFT : ℤ) then img
  else (img.drop _CROP_TOP).map fun row =>
    (row.drop _CROP_LEFT).take (w - _CROP_LEFT - _CROP_RIGHT)

/-- Minimum of a list of values (used to model `np.nanmin` on a frame
whose entries are not NaN); 0 on the empty list, on which NumPy would
raise instead, so results about it assume a non-empty frame. -/
def listMin : List ℚ → ℚ
  | [] => 0
  | x :: t => t.foldl min x

/-- Maximum of a list of values, modelling `np.nanmax` on a frame. -/
def listMax : List ℚ → ℚ
  | [] => 0
  | x :: t => t.foldl max x

/-- Frame-wide minimum, `np.nanmin(frame)` on a 2-D frame. -/
def matMin (m : List (List ℚ)) : ℚ := listMin m.flatten

/-- Frame-wide maximum, `np.nanmax(frame)` on a 2-D frame. -/
def matMax (m : List (List ℚ)) : ℚ := listMax m.flatten

/-- Windowing and polarity correction `_apply_voi_and_photometric`
(src/pipeline/dicom_processor.py lines 31-42).  The external
`pydicom.apply_voi_lut` call sits behind `voi`: `some g` models a
successful VOI-LUT transform returning `g`, `none` the exception branch
that falls back to the raw frame cast to float.  The float casts are
value-preserving in this rational model.  When the photometric tag is
MONOCHROME1, every value `v` of the post-VOI frame `f` is replaced by
`fmax - (v - fmin)` with `fmin, fmax` the min/max of `f` itself. -/
def _apply_voi_and_photometric (voi : List (List ℚ) → Option (List (List ℚ)))
    (frame : List (List ℚ)) (photometric : String) : List (List ℚ) :=
  let f := (voi frame).getD frame
  if photometric = "MONOCHROME1" then
    f.map fun row => row.map fun v => matMax f - (v - matMin f)
  else f

example : sampleIndices 3 5 = some [0, 1, 2] := by decide
example : sampleIndices 2 1 = none := by decide
example : sampleIndices 1 0 = some [] := by decide
example : sampleIndices 5 3 = some [0, 2, 4] := by
  norm_num [sampleIndices, pyRound, List.range_succ]
  rfl
example : sampleIndices 10 4 = some [0, 3, 6, 9] := by
  norm_num [sampleIndices, pyRound, List.range_succ]
  rfl

theorem pyRound_natCast (m : ℕ) : pyRound (m : ℚ) = m := by
  simp [pyRound]

theorem pyRound_nonneg {x : ℚ} (hx : 0 ≤ x) : 0 ≤ pyRound x := by
  have hf : (0 : ℤ) ≤ ⌊x⌋ := Int.floor_nonneg.mpr hx
  unfold pyRound
  split
  · exact hf
  · split
    · omega
    · split
      · exact hf
      · omega

theorem pyRound_le {x : ℚ} {m : ℕ} (hx : x ≤ (m : ℚ)) : pyRound x ≤ (m : ℤ) := by
  have hf : ⌊x⌋ ≤ (m : ℤ) := by
    calc ⌊x⌋ ≤ ⌊(m : ℚ)⌋ := Int.floor_le_floor hx
    _ = (m : ℤ) := by simp
  have hstep : ¬ (x - ⌊x⌋ < 1/2) → ⌊x⌋ + 1 ≤ (m : ℤ) := by
    intro hge
    push_neg at hge
    have h1 : (⌊x⌋ : ℚ) + 1/2 ≤ x := by linarith
    have h2 : ((⌊x⌋ : ℤ) : ℚ) < ((m : ℤ) : ℚ) := by push_cast; linarith
    have h3 : ⌊x⌋ < (m : ℤ) := by exact_mod_cast h2
    omega
  unfold pyRound
  split
  · exact hf
  · split
    · next h1 h2 => exact hstep h1
    · split
      · exact hf
      · next h1 h2 h3 => exact hstep h1

theorem head?_eq_of_sorted_of_mem_zero {l : List ℕ} (hs : l.Sorted (· ≤ ·))
    (h0 : 0 ∈ l) : l.head? = some 0 := by
  cases l with
  | nil => cases h0
  | cons a t =>
    rcases List.sorted_cons.mp hs with ⟨ha, _⟩
    rcases List.mem_cons.mp h0 with h | h
    · simp [h.symm]
    · have := ha 0 h
      have : a = 0 := Nat.le_zero.mp this
      simp [this]

theorem getLast?_eq_of_sorted_of_mem_max {l : List ℕ} (m : ℕ) (hs : l.Sorted (· ≤ ·))
    (hm : m ∈ l) (hb : ∀ x ∈ l, x ≤ m) : l.getLast? = some m := by
  induction l with
  | nil => cases hm
  | cons a t IH =>
    rcases List.sorted_cons.mp hs with ⟨ha, hst⟩
    cases t with
    | nil =>
      rcases List.mem_cons.mp hm with h | h
      · simp [h.symm]
      · cases h
    | cons b t2 =>
      have hm2 : m ∈ b :: t2 := by
        rcases List.mem_cons.mp hm with h | h
        · have hab : a ≤ b := ha b (List.mem_cons_self _ _)
          have hbm : b ≤ m := hb b (List.mem_cons_of_mem _ (List.mem_cons_self _ _))
          have : b = m := by omega
          exact this ▸ List.mem_cons_self _ _
        · exact h
      rw [List.getLast?_cons_cons]
      exact IH hst hm2 fun x hx => hb x (List.mem_cons_of_mem _ hx)

theorem sampleIndices_of_lt {n C : ℕ} (hC : 2 ≤ C) (hlt : C < n) :
    sampleIndices n C =
      some ((((List.range C).map fun i : ℕ =>
        (pyRound (((i : ℚ) * ((n : ℚ) - 1)) / ((C : ℚ) - 1))).toNat).insertionSort
          (· ≤ ·)).dedup) := by
  unfold sampleIndices
  rw [if_neg (by omega), if_neg (by omega)]

theorem sampleIndices_spec (n C : ℕ) (hC : 2 ≤ C) (hlt : C < n) :
    ∃ l, sampleIndices n C = some l ∧ l.length ≤ C ∧ l.head? = some 0 ∧
      l.getLast? = some (n - 1) ∧ l.Sorted (· < ·) := by
  have h1n : 1 ≤ n := by omega
  have hCQpos : (0 : ℚ) < (C : ℚ) - 1 := by
    have : (2 : ℚ) ≤ (C : ℚ) := by exact_mod_cast hC
    linarith
  have hnQ : (0 : ℚ) ≤ (n : ℚ) - 1 := by
    have : (1 : ℚ) ≤ (n : ℚ) := by exact_mod_cast h1n
    linarith
  have hcastC : ((C - 1 : ℕ) : ℚ) = (C : ℚ) - 1 := by
    rw [Nat.cast_sub (by omega), Nat.cast_one]
  have hcastn : ((n - 1 : ℕ) : ℚ) = (n : ℚ) - 1 := by
    rw [Nat.cast_sub (by omega), Nat.cast_one]
  set g : ℕ → ℕ := fun i =>
    (pyRound (((i : ℚ) * ((n : ℚ) - 1)) / ((C : ℚ) - 1))).toNat with hgdef
  set raw := (List.range C).map g with hrawdef
  set l := (raw.insertionSort (· ≤ ·)).dedup with hldef
  have hmem : ∀ x : ℕ, x ∈ l ↔ x ∈ raw := by
    intro x
    rw [hldef, List.mem_dedup, (List.perm_insertionSort _ raw).mem_iff]
  have hsle : l.Sorted (· ≤ ·) :=
    List.Pairwise.sublist (List.dedup_sublist _) (List.sorted_insertionSort _ raw)
  have hslt : l.Sorted (· < ·) := hsle.lt_of_le (List.nodup_dedup _)
  have hg0 : g 0 = 0 := by
    have harg : ((0 : ℕ) : ℚ) * ((n : ℚ) - 1) / ((C : ℚ) - 1) = ((0 : ℕ) : ℚ) := by
      simp
    rw [hgdef]
    simp only [harg, pyRound_natCast]
    simp
  have hgC : g (C - 1) = n - 1 := by
    have harg : ((C - 1 : ℕ) : ℚ) * ((n : ℚ) - 1) / ((C : ℚ) - 1) = ((n - 1 : ℕ) : ℚ) := by
      rw [hcastC, hcastn, mul_div_assoc, mul_div_assoc']
      rw [mul_div_cancel_left₀ _ (ne_of_gt hCQpos)]
    rw [hgdef]
    simp only [harg, pyRound_natCast]
    simp
  have hbound : ∀ i, i < C → g i ≤ n - 1 := by
    intro i hi
    have hiq : (i : ℚ) ≤ (C : ℚ) - 1 := by
      rw [← hcastC]
      exact_mod_cast Nat.le_sub_one_of_lt hi
    have hle : ((i : ℚ) * ((n : ℚ) - 1)) / ((C : ℚ) - 1) ≤ ((n - 1 : ℕ) : ℚ) := by
      rw [hcastn]
      rw [div_le_iff₀ hCQpos]
      nlinarith
    have := pyRound_le hle
    rw [hgdef]
    exact Int.toNat_le.mpr this
  have h0raw : 0 ∈ raw := by
    rw [hrawdef]
    exact List.mem_map.mpr ⟨0, List.mem_range.mpr (by omega), hg0⟩
  have hnraw : n - 1 ∈ raw := by
    rw [hrawdef]
    exact List.mem_map.mpr ⟨C - 1, List.mem_range.mpr (by omega), hgC⟩
  have hballs : ∀ x ∈ l, x ≤ n - 1 := by
    intro x hx
    rcases List.mem_map.mp ((hmem x).mp hx) with ⟨i, hi, hgi⟩
    exact hgi ▸ hbound i (List.mem_range.mp hi)
  refine ⟨l, ?_, ?_, ?_, ?_, hslt⟩
  · rw [sampleIndices_of_lt hC hlt]
  · calc l.length ≤ (raw.insertionSort (· ≤ ·)).length := (List.dedup_sublist _).length_le
      _ = raw.length := (List.perm_insertionSort _ raw).length_eq
      _ = C := by rw [hrawdef, List.length_map, List.length_range]
  · exact head?_eq_of_sorted_of_mem_zero hsle ((hmem 0).mpr h0raw)
  · exact getLast?_eq_of_sorted_of_mem_max (n - 1) hsle ((hmem _).mpr hnraw) hballs

theorem enumFrom_map_snd_comp {α β : Type} (f : α → β) :
    ∀ (k : ℕ) (l : List α), ((l.enumFrom k).map fun pi => f pi.2) = l.map f := by
  intro k l
  induction l generalizing k with
  | nil => rfl
  | cons a t IH => simp only [List.enumFrom_cons, List.map_cons, IH]

/-- C3: the sequence of per-frame results yielded by
`compute_gradcam_generator` equals, in order and in the fields
`frame_idx`, `raw_b64`, `heatmap_b64`, the list returned by
`compute_gradcam_all` on the same input and cap (including the
error behaviour of the shared sampling step). -/
theorem generator_refines_batch (n maxFrames : ℕ) (rawEnc heatEnc : ℕ → String) :
    (compute_gradcam_generator n maxFrames rawEnc heatEnc).map (List.map GenFrameResult.core) =
      compute_gradcam_all n maxFrames rawEnc heatEnc := by
  unfold compute_gradcam_generator compute_gradcam_all
  cases h : sampleIndices n maxFrames with
  | none => rfl
  | some indices =>
    simp only [Option.map_some']
    congr 1
    rw [List.map_map]
    exact enumFrom_map_snd_comp
      (fun idx : ℕ => (⟨idx, rawEnc idx, heatEnc idx⟩ : FrameResult)) 0 indices

/-- C1 counterexample: with 2 frames and cap 1 (so cap < frame count) the
sampling step raises ZeroDivisionError (division by max_frames - 1 = 0)
instead of producing an index list with the claimed shape. -/
theorem sampling_cap_one_divides_by_zero : sampleIndices 2 1 = none := by decide

/-- C1 (amended to caps of at least 2): for every frame count N and cap C
with 2 ≤ C < N, both GradCAM modes succeed and the sampled frame indices
form a list of length at most C whose first element is 0, whose last
element is N - 1, and whose elements are strictly increasing. -/
theorem gradcam_sampling_uniform (n C : ℕ) (rawEnc heatEnc : ℕ → String)
    (hC : 2 ≤ C) (hlt : C < n) :
    ∃ r q, compute_gradcam_all n C rawEnc heatEnc = some r ∧
      compute_gradcam_generator n C rawEnc heatEnc = some q ∧
      q.map GenFrameResult.frame_idx = r.map FrameResult.frame_idx ∧
      r.length ≤ C ∧
      (r.map FrameResult.frame_idx).head? = some 0 ∧
      (r.map FrameResult.frame_idx).getLast? = some (n - 1) ∧
      (r.map FrameResult.frame_idx).Sorted (· < ·) := by
  obtain ⟨l, hl, hlen, hhead, hlast, hsort⟩ := sampleIndices_spec n C hC hlt
  have hmapr : ((l.map fun idx : ℕ => (⟨idx, rawEnc idx, heatEnc idx⟩ : FrameResult)).map
      FrameResult.frame_idx) = l := by
    rw [List.map_map]
    exact List.map_id' l
  have hmapq : (((l.enum.map fun pi : ℕ × ℕ =>
      (⟨pi.2, rawEnc pi.2, heatEnc pi.2, pi.1 + 1, l.length⟩ : GenFrameResult))).map
      GenFrameResult.frame_idx) = l := by
    rw [List.map_map]
    exact List.enum_map_snd l
  refine ⟨l.map fun idx : ℕ => ⟨idx, rawEnc idx, heatEnc idx⟩,
    l.enum.map fun pi : ℕ × ℕ => ⟨pi.2, rawEnc pi.2, heatEnc pi.2, pi.1 + 1, l.length⟩,
    ?_, ?_, ?_, ?_, ?_, ?_, ?_⟩
  · simp [compute_gradcam_all, hl]
  · simp [compute_gradcam_generator, hl]
  · rw [hmapq, hmapr]
  · rw [List.length_map]
    exact hlen
  · rw [hmapr]
    exact hhead
  · rw [hmapr]
    exact hlast
  · rw [hmapr]
    exact hsort

/-- C1 witness: the amended sampling theorem instantiated at 3 frames with
cap 2. -/
theorem gradcam_sampling_uniform_witness :
    ∃ r q, compute_gradcam_all 3 2 (fun _ => "") (fun _ => "") = some r ∧
      compute_gradcam_generator 3 2 (fun _ => "") (fun _ => "") = some q ∧
      q.map GenFrameResult.frame_idx = r.map FrameResult.frame_idx ∧
      r.length ≤ 2 ∧
      (r.map FrameResult.frame_idx).head? = some 0 ∧
      (r.map FrameResult.frame_idx).getLast? = some (3 - 1) ∧
      (r.map FrameResult.frame_idx).Sorted (· < ·) :=
  gradcam_sampling_uniform 3 2 (fun _ => "") (fun _ => "") (by decide) (by decide)

theorem le_maxVal {l : List ℚ} {x : ℚ} (hx : x ∈ l) : x ≤ maxVal l := by
  induction l with
  | nil => cases hx
  | cons a t IH =>
    simp only [maxVal, List.foldr_cons] at *
    rcases List.mem_cons.mp hx with h | h
    · exact h ▸ le_max_left _ _
    · exact le_trans (IH h) (le_max_right _ _)

theorem maxVal_eq_zero {l : List ℚ} (h : ∀ x ∈ l, x = 0) : maxVal l = 0 := by
  induction l with
  | nil => rfl
  | cons a t IH =>
    simp only [maxVal, List.foldr_cons] at *
    rw [h a (List.mem_cons_self _ _), IH fun x hx => h x (List.mem_cons_of_mem _ hx)]
    simp

theorem maxVal_map_div {l : List ℚ} {m : ℚ} (hm : 0 < m) :
    maxVal (l.map fun x => x / m) = maxVal l / m := by
  induction l with
  | nil => simp [maxVal]
  | cons a t IH =>
    simp only [List.map_cons, maxVal, List.foldr_cons] at *
    rw [IH, max_div_div_right (le_of_lt hm)]

/-- C2 counterexample: the weighted sum `[-1]` is not all-zero, yet the
returned heatmap is all-zero (ReLU clips the negative entry), so its
maximum is 0, not 1. -/
theorem compute_heatmap_negative_sum_not_normalized :
    (¬ ∀ x ∈ weightedSum [[-1]] [1], x = 0) ∧
    maxVal (compute_heatmap [[-1]] [1]) ≠ 1 := by
  have hws : weightedSum [[-1]] [1] = [-1] := by
    norm_num [weightedSum]
  have hcr : compute_heatmap [[-1]] [1] = [0] := by
    simp [compute_heatmap, hws, reluQ, maxVal]
  constructor
  · intro h
    have := h (-1) (by rw [hws]; exact List.mem_singleton_self _)
    norm_num at this
  · rw [hcr]
    norm_num [maxVal]

/-- C2 (amended): if the gradient-weighted sum of activation channels has
a positive entry, the returned heatmap has maximum exactly 1; if it has
no positive entry (in particular when it is all-zero), the returned
heatmap is all-zero.  No exception in either case. -/
theorem compute_heatmap_normalization (conv : List (List ℚ)) (w : List ℚ) :
    ((∃ x ∈ weightedSum conv w, 0 < x) → maxVal (compute_heatmap conv w) = 1) ∧
    ((∀ x ∈ weightedSum conv w, x ≤ 0) → ∀ y ∈ compute_heatmap conv w, y = 0) := by
  constructor
  · rintro ⟨x, hx, hxpos⟩
    have hrelu : reluQ x = x := max_eq_left (le_of_lt hxpos)
    have hmem : x ∈ (weightedSum conv w).map reluQ :=
      hrelu ▸ List.mem_map_of_mem reluQ hx
    have hpos : 0 < maxVal ((weightedSum conv w).map reluQ) :=
      lt_of_lt_of_le hxpos (le_maxVal hmem)
    simp only [compute_heatmap, if_pos hpos]
    rw [maxVal_map_div hpos]
    exact div_self (ne_of_gt hpos)
  · intro hall y hy
    have hzero : ∀ z ∈ (weightedSum conv w).map reluQ, z = 0 := by
      intro z hz
      rcases List.mem_map.mp hz with ⟨x, hx, hzx⟩
      rw [← hzx]
      exact max_eq_right (hall x hx)
    have hmz : maxVal ((weightedSum conv w).map reluQ) = 0 := maxVal_eq_zero hzero
    simp only [compute_heatmap, hmz, lt_irrefl, if_false] at hy
    exact hzero y hy

/-- C2 witness: a strictly positive weighted sum is normalized to
maximum exactly 1. -/
theorem compute_heatmap_normalization_witness :
    maxVal (compute_heatmap [[2]] [1]) = 1 :=
  (compute_heatmap_normalization [[2]] [1]).1
    ⟨2, by norm_num [weightedSum], by norm_num⟩

/-- C4: for any three individual model probabilities in [0, 1] returned by
the bundle's models on the fixed-order feature row, the combined
probability is exactly their arithmetic mean and the binary decision is
1 exactly when the combined probability is at least the threshold
(whose Python default is 0.5). -/
theorem predict_ensemble_mean (bundle : Bundle) (ncs : ℤ) (previa : String)
    (cnn t : ℚ) (pb : ℤ) (hpb : _previa_to_bin previa = .ok pb)
    (_hl : 0 ≤ bundle.log_model ncs pb cnn ∧ bundle.log_model ncs pb cnn ≤ 1)
    (_hr : 0 ≤ bundle.rf_model ncs pb cnn ∧ bundle.rf_model ncs pb cnn ≤ 1)
    (_hg : 0 ≤ bundle.gb_model ncs pb cnn ∧ bundle.gb_model ncs pb cnn ≤ 1) :
    ∃ r, predict_ensemble bundle ncs previa cnn t = .ok r ∧
      r.log_prob = bundle.log_model ncs pb cnn ∧
      r.rf_prob = bundle.rf_model ncs pb cnn ∧
      r.gb_prob = bundle.gb_model ncs pb cnn ∧
      r.ensemble_prob = (r.log_prob + r.rf_prob + r.gb_prob) / 3 ∧
      (r.ensemble_pred = 1 ↔ t ≤ r.ensemble_prob) ∧
      (r.ensemble_pred = 0 ↔ ¬ t ≤ r.ensemble_prob) := by
  refine ⟨⟨(bundle.log_model ncs pb cnn + bundle.rf_model ncs pb cnn +
      bundle.gb_model ncs pb cnn) / 3,
    if t ≤ (bundle.log_model ncs pb cnn + bundle.rf_model ncs pb cnn +
      bundle.gb_model ncs pb cnn) / 3 then 1 else 0,
    bundle.log_model ncs pb cnn, bundle.rf_model ncs pb cnn,
    bundle.gb_model ncs pb cnn⟩, ?_, rfl, rfl, rfl, rfl, ?_, ?_⟩
  · unfold predict_ensemble
    rw [hpb]
  · by_cases h : t ≤ (bundle.log_model ncs pb cnn + bundle.rf_model ncs pb cnn +
      bundle.gb_model ncs pb cnn) / 3 <;> simp [h]
  · by_cases h : t ≤ (bundle.log_model ncs pb cnn + bundle.rf_model ncs pb cnn +
      bundle.gb_model ncs pb cnn) / 3 <;> simp [h]

/-- C4 witness: the mean/threshold theorem instantiated with three
constant models returning 1/2, 3/4 and 1/4, covariate "yes" and the
default threshold 0.5. -/
theorem predict_ensemble_mean_witness :
    ∃ r, predict_ensemble
        ⟨fun _ _ _ => 1/2, fun _ _ _ => 3/4, fun _ _ _ => 1/4⟩ 2 "yes" (9/10) (1/2) = .ok r ∧
      r.log_prob = 1/2 ∧ r.rf_prob = 3/4 ∧ r.gb_prob = 1/4 ∧
      r.ensemble_prob = (r.log_prob + r.rf_prob + r.gb_prob) / 3 ∧
      (r.ensemble_pred = 1 ↔ (1/2 : ℚ) ≤ r.ensemble_prob) ∧
      (r.ensemble_pred = 0 ↔ ¬ (1/2 : ℚ) ≤ r.ensemble_prob) :=
  predict_ensemble_mean ⟨fun _ _ _ => 1/2, fun _ _ _ => 3/4, fun _ _ _ => 1/4⟩
    2 "yes" (9/10) (1/2) 1 (by rfl)
    (by norm_num) (by norm_num) (by norm_num)

/-- C5 counterexample: the string " yes" (leading space) is not a case
variant of "yes", "y", "no" or "n", yet `_previa_to_bin` maps it to 1
instead of raising `InvalidCovariateError`, because the code strips
whitespace first. -/
theorem previa_whitespace_not_rejected :
    _previa_to_bin " yes" = .ok 1 ∧
    ¬ caseVariant " yes" "yes" ∧ ¬ caseVariant " yes" "y" ∧
    ¬ caseVariant " yes" "no" ∧ ¬ caseVariant " yes" "n" := by
  refine ⟨by rfl, by decide, by decide, by decide, by decide⟩

/-- C5 (amended to account for whitespace stripping): `_previa_to_bin`
is deterministic and exhaustive on the whitespace-stripped input: every
string whose stripped form is a case variant of "yes" or "y" maps to 1,
every string whose stripped form is a case variant of "no" or "n" maps
to 0, and every other string raises `InvalidCovariateError` (no silent
default). -/
theorem previa_to_bin_exhaustive (s : String) :
    ((caseVariant (pyStrip s) "yes" ∨ caseVariant (pyStrip s) "y") →
      _previa_to_bin s = .ok 1) ∧
    ((caseVariant (pyStrip s) "no" ∨ caseVariant (pyStrip s) "n") →
      _previa_to_bin s = .ok 0) ∧
    (¬ (caseVariant (pyStrip s) "yes" ∨ caseVariant (pyStrip s) "y" ∨
        caseVariant (pyStrip s) "no" ∨ caseVariant (pyStrip s) "n") →
      _previa_to_bin s = .error "Unrecognized previa value") := by
  have hyes : caseVariant (pyStrip s) "yes" ↔ pyLower (pyStrip s) = "yes" := by
    unfold caseVariant
    rw [show pyLower "yes" = "yes" from by decide]
  have hy : caseVariant (pyStrip s) "y" ↔ pyLower (pyStrip s) = "y" := by
    unfold caseVariant
    rw [show pyLower "y" = "y" from by decide]
  have hno : caseVariant (pyStrip s) "no" ↔ pyLower (pyStrip s) = "no" := by
    unfold caseVariant
    rw [show pyLower "no" = "no" from by decide]
  have hn : caseVariant (pyStrip s) "n" ↔ pyLower (pyStrip s) = "n" := by
    unfold caseVariant
    rw [show pyLower "n" = "n" from by decide]
  refine ⟨?_, ?_, ?_⟩
  · intro h
    rw [hyes, hy] at h
    unfold _previa_to_bin
    rw [if_pos h]
  · intro h
    rw [hno, hn] at h
    have hne : ¬ (pyLower (pyStrip s) = "yes" ∨ pyLower (pyStrip s) = "y") := by
      rcases h with h | h <;> rw [h] <;> decide
    unfold _previa_to_bin
    rw [if_neg hne, if_pos h]
  · intro h
    rw [hyes, hy, hno, hn] at h
    push_neg at h
    unfold _previa_to_bin
    rw [if_neg (by tauto), if_neg (by tauto)]

/-- C5 witness: the exhaustive mapping theorem applied to the case
variant "No". -/
theorem previa_to_bin_exhaustive_witness : _previa_to_bin "No" = .ok 0 :=
  (previa_to_bin_exhaustive "No").2.1 (Or.inl (by decide))

/-- C6: for every non-empty probability vector whose entries are all NaN,
`aggregate_probs` returns NaN (and does not raise) for each of the
methods "mean", "max" and "median". -/
theorem aggregate_probs_all_nan (probs : List (Option ℚ)) (hne : probs ≠ [])
    (hall : ∀ x ∈ probs, x = none) :
    aggregate_probs probs "mean" = .ok none ∧
    aggregate_probs probs "max" = .ok none ∧
    aggregate_probs probs "median" = .ok none := by
  have hfm : probs.filterMap id = [] := by
    rw [List.filterMap_eq_nil_iff]
    intro a ha
    simp [hall a ha]
  have hlen : ¬ probs.length = 0 := by simpa [List.length_eq_zero] using hne
  refine ⟨?_, ?_, ?_⟩
  · unfold aggregate_probs
    rw [if_neg hlen, if_pos (show pyLower "mean" = "mean" from by rfl)]
    simp [nanmean, hfm]
  · unfold aggregate_probs
    rw [if_neg hlen, if_neg (show ¬ pyLower "max" = "mean" from by decide),
      if_pos (show pyLower "max" = "max" from by rfl)]
    simp [nanmax, hfm]
  · unfold aggregate_probs
    rw [if_neg hlen, if_neg (show ¬ pyLower "median" = "mean" from by decide),
      if_neg (show ¬ pyLower "median" = "max" from by decide),
      if_pos (show pyLower "median" = "median" from by rfl)]
    simp [nanmedian, hfm]

/-- C6 witness: the all-NaN aggregation theorem at the one-element NaN
vector. -/
theorem aggregate_probs_all_nan_witness :
    aggregate_probs [none] "mean" = .ok none ∧
    aggregate_probs [none] "max" = .ok none ∧
    aggregate_probs [none] "median" = .ok none :=
  aggregate_probs_all_nan [none] (by simp) (by simp)

/-- C7: on non-empty input the method name is matched case-insensitively:
any case variant of "mean", "max" or "median" selects the corresponding
NaN-ignoring reduction, and any method name that is a case variant of
none of the three raises `InvalidAggregationMethod` (a `ValueError` in
the code). -/
theorem aggregate_probs_method_dispatch (probs : List (Option ℚ)) (method : String)
    (hne : probs ≠ []) :
    (caseVariant method "mean" → aggregate_probs probs method = .ok (nanmean probs)) ∧
    (caseVariant method "max" → aggregate_probs probs method = .ok (nanmax probs)) ∧
    (caseVariant method "median" → aggregate_probs probs method = .ok (nanmedian probs)) ∧
    (¬ (caseVariant method "mean" ∨ caseVariant method "max" ∨ caseVariant method "median") →
      aggregate_probs probs method = .error "Unknown aggregation method") := by
  have hlen : ¬ probs.length = 0 := by simpa [List.length_eq_zero] using hne
  have hmean : caseVariant method "mean" ↔ pyLower method = "mean" := by
    unfold caseVariant
    rw [show pyLower "mean" = "mean" from by rfl]
  have hmax : caseVariant method "max" ↔ pyLower method = "max" := by
    unfold caseVariant
    rw [show pyLower "max" = "max" from by rfl]
  have hmedian : caseVariant method "median" ↔ pyLower method = "median" := by
    unfold caseVariant
    rw [show pyLower "median" = "median" from by rfl]
  refine ⟨?_, ?_, ?_, ?_⟩
  · intro h
    rw [hmean] at h
    unfold aggregate_probs
    rw [if_neg hlen, if_pos h]
  · intro h
    rw [hmax] at h
    have h1 : ¬ pyLower method = "mean" := by rw [h]; decide
    unfold aggregate_probs
    rw [if_neg hlen, if_neg h1, if_pos h]
  · intro h
    rw [hmedian] at h
    have h1 : ¬ pyLower method = "mean" := by rw [h]; decide
    have h2 : ¬ pyLower method = "max" := by rw [h]; decide
    unfold aggregate_probs
    rw [if_neg hlen, if_neg h1, if_neg h2, if_pos h]
  · intro h
    rw [hmean, hmax, hmedian] at h
    push_neg at h
    obtain ⟨h1, h2, h3⟩ := h
    unfold aggregate_probs
    rw [if_neg hlen, if_neg h1, if_neg h2, if_neg h3]

/-- C7 witness: the dispatch theorem applied to the case variant "MAX" on
a one-element vector. -/
theorem aggregate_probs_method_dispatch_witness :
    aggregate_probs [some (1/2)] "MAX" = .ok (nanmax [some (1/2)]) :=
  (aggregate_probs_method_dispatch [some (1/2)] "MAX" (by simp)).2.1 (by rfl)

/-- C10: on the empty probability vector, `aggregate_probs` returns NaN
and does not raise for every method string, including unrecognized
names: the emptiness check precedes the method-name validation. -/
theorem aggregate_probs_empty (method : String) :
    aggregate_probs [] method = .ok none := rfl

theorem crop_of_large {img : List (List ℚ)} (h1 : 65 < img.length)
    (h2 : 216 < (img.headD []).length) :
    _crop img = (img.drop 65).map fun row =>
      (row.drop 66).take ((img.headD []).length - 66 - 150) := by
  simp only [_crop, _CROP_TOP, _CROP_LEFT, _CROP_RIGHT]
  rw [if_neg (by omega)]

/-- C8: on any rectangular 2-D frame, if the height is at most the top
crop margin (65) or the width is at most the sum of the left and right
crop margins (66 + 150 = 216), `_crop` returns the frame unchanged
(never raises, never yields a negative-size array); otherwise it removes
exactly 65 rows from the top, 66 columns from the left and 150 columns
from the right, with no bottom crop: the result has height h - 65 and
width w - 216 and its entry at (i, j) is the input entry at
(65 + i, 66 + j). -/
theorem crop_guard_and_exact (img : List (List ℚ))
    (hrect : ∀ row ∈ img, row.length = (img.headD []).length) :
    ((img.length ≤ 65 ∨ (img.headD []).length ≤ 216) → _crop img = img) ∧
    ((65 < img.length ∧ 216 < (img.headD []).length) →
      (_crop img).length = img.length - 65 ∧
      (∀ row ∈ _crop img, row.length = (img.headD []).length - 216) ∧
      (∀ i j : ℕ, i < img.length - 65 → j < (img.headD []).length - 216 →
        ((_crop img).getD i []).getD j 0 = (img.getD (65 + i) []).getD (66 + j) 0)) := by
  constructor
  · intro h
    simp only [_crop, _CROP_TOP, _CROP_LEFT, _CROP_RIGHT]
    rw [if_pos (by omega)]
  · rintro ⟨h1, h2⟩
    have hc := crop_of_large h1 h2
    refine ⟨?_, ?_, ?_⟩
    · rw [hc, List.length_map, List.length_drop]
    · intro row hrow
      rw [hc] at hrow
      rcases List.mem_map.mp hrow with ⟨r, hr, hrr⟩
      have hrl : r.length = (img.headD []).length := hrect r (List.mem_of_mem_drop hr)
      rw [← hrr, List.length_take, List.length_drop, hrl]
      omega
    · intro i j hi hj
      have hilen : i < (img.drop 65).length := by
        rw [List.length_drop]
        omega
      have hmaplen : i < ((img.drop 65).map fun row =>
          (row.drop 66).take ((img.headD []).length - 66 - 150)).length := by
        rw [List.length_map]
        exact hilen
      have hideq : (65 : ℕ) + i < img.length := by omega
      have hrowcrop : (_crop img).getD i [] =
          ((img.getD (65 + i) []).drop 66).take ((img.headD []).length - 66 - 150) := by
        rw [hc, List.getD_eq_getElem _ _ hmaplen, List.getElem_map, List.getElem_drop,
          List.getD_eq_getElem _ _ hideq]
      have hrowlen : (img.getD (65 + i) []).length = (img.headD []).length := by
        rw [List.getD_eq_getElem _ _ hideq]
        exact hrect _ (List.getElem_mem hideq)
      have hjlen : j < (((img.getD (65 + i) []).drop 66).take
          ((img.headD []).length - 66 - 150)).length := by
        rw [List.length_take, List.length_drop, hrowlen]
        omega
      have hjdeq : (66 : ℕ) + j < (img.getD (65 + i) []).length := by
        rw [hrowlen]
        omega
      rw [hrowcrop, List.getD_eq_getElem _ _ hjlen, List.getElem_take, List.getElem_drop,
        List.getD_eq_getElem _ _ hjdeq]

/-- C8 witness: a 1-by-1 frame is below both crop margins and is returned
unchanged. -/
theorem crop_guard_and_exact_witness : _crop [[(0 : ℚ)]] = [[(0 : ℚ)]] :=
  (crop_guard_and_exact [[(0 : ℚ)]] (by simp)).1 (Or.inl (by decide))

theorem foldl_min_mem (t : List ℚ) : ∀ x : ℚ, t.foldl min x ∈ x :: t := by
  induction t with
  | nil => intro x; simp
  | cons a t IH =>
    intro x
    rw [List.foldl_cons]
    rcases List.mem_cons.mp (IH (min x a)) with h | h
    · rcases min_choice x a with hm | hm
      · rw [h, hm]
        exact List.mem_cons_self _ _
      · rw [h, hm]
        exact List.mem_cons_of_mem _ (List.mem_cons_self _ _)
    · exact List.mem_cons_of_mem _ (List.mem_cons_of_mem _ h)

theorem foldl_min_le (t : List ℚ) : ∀ x y : ℚ, y ∈ x :: t → t.foldl min x ≤ y := by
  induction t with
  | nil =>
    intro x y hy
    rw [List.foldl_nil]
    rcases List.mem_cons.mp hy with h | h
    · exact le_of_eq h.symm
    · cases h
  | cons a t IH =>
    intro x y hy
    rw [List.foldl_cons]
    have hmin : t.foldl min (min x a) ≤ min x a :=
      IH (min x a) (min x a) (List.mem_cons_self _ _)
    rcases List.mem_cons.mp hy with h | h
    · subst h
      exact le_trans hmin (min_le_left _ _)
    · rcases List.mem_cons.mp h with h2 | h2
      · subst h2
        exact le_trans hmin (min_le_right _ _)
      · exact IH (min x a) y (List.mem_cons_of_mem _ h2)

theorem foldl_max_mem (t : List ℚ) : ∀ x : ℚ, t.foldl max x ∈ x :: t := by
  induction t with
  | nil => intro x; simp
  | cons a t IH =>
    intro x
    rw [List.foldl_cons]
    rcases List.mem_cons.mp (IH (max x a)) with h | h
    · rcases max_choice x a with hm | hm
      · rw [h, hm]
        exact List.mem_cons_self _ _
      · rw [h, hm]
        exact List.mem_cons_of_mem _ (List.mem_cons_self _ _)
    · exact List.mem_cons_of_mem _ (List.mem_cons_of_mem _ h)

theorem le_foldl_max (t : List ℚ) : ∀ x y : ℚ, y ∈ x :: t → y ≤ t.foldl max x := by
  induction t with
  | nil =>
    intro x y hy
    rw [List.foldl_nil]
    rcases List.mem_cons.mp hy with h | h
    · exact le_of_eq h
    · cases h
  | cons a t IH =>
    intro x y hy
    rw [List.foldl_cons]
    have hmax : max x a ≤ t.foldl max (max x a) :=
      IH (max x a) (max x a) (List.mem_cons_self _ _)
    rcases List.mem_cons.mp hy with h | h
    · subst h
      exact le_trans (le_max_left _ _) hmax
    · rcases List.mem_cons.mp h with h2 | h2
      · subst h2
        exact le_trans (le_max_right _ _) hmax
      · exact IH (max x a) y (List.mem_cons_of_mem _ h2)

theorem listMin_mem {l : List ℚ} (h : l ≠ []) : listMin l ∈ l := by
  cases l with
  | nil => exact absurd rfl h
  | cons a t => exact foldl_min_mem t a

theorem listMin_le {l : List ℚ} {x : ℚ} (hx : x ∈ l) : listMin l ≤ x := by
  cases l with
  | nil => cases hx
  | cons a t => exact foldl_min_le t a x hx

theorem listMax_mem {l : List ℚ} (h : l ≠ []) : listMax l ∈ l := by
  cases l with
  | nil => exact absurd rfl h
  | cons a t => exact foldl_max_mem t a

theorem le_listMax {l : List ℚ} {x : ℚ} (hx : x ∈ l) : x ≤ listMax l := by
  cases l with
  | nil => cases hx
  | cons a t => exact le_foldl_max t a x hx

/-- C9: on a frame whose photometric tag is MONOCHROME1,
`_apply_voi_and_photometric` replaces every value v of the post-VOI frame
f by `matMax f - (v - matMin f)`, where `matMin f` and `matMax f` are
that frame's own minimum and maximum (they belong to f and bound every
entry of f — no global or cross-frame extremum is involved), and the
output has the same spatial shape as the input frame.  The hypothesis
`hshape` is the external contract that `pydicom.apply_voi_lut` preserves
the frame's shape; `hne` excludes the empty frame, on which NumPy's
min/max would raise. -/
theorem apply_voi_photometric_inverts (voi : List (List ℚ) → Option (List (List ℚ)))
    (frame f : List (List ℚ)) (hf : (voi frame).getD frame = f)
    (hshape : f.length = frame.length ∧
      ∀ i : ℕ, (f.getD i []).length = (frame.getD i []).length)
    (hne : f.flatten ≠ []) :
    (_apply_voi_and_photometric voi frame "MONOCHROME1").length = frame.length ∧
    (∀ i : ℕ, ((_apply_voi_and_photometric voi frame "MONOCHROME1").getD i []).length =
      (frame.getD i []).length) ∧
    (∀ i j : ℕ, i < f.length → j < (f.getD i []).length →
      ((_apply_voi_and_photometric voi frame "MONOCHROME1").getD i []).getD j 0 =
        matMax f - ((f.getD i []).getD j 0 - matMin f)) ∧
    matMin f ∈ f.flatten ∧ (∀ x ∈ f.flatten, matMin f ≤ x) ∧
    matMax f ∈ f.flatten ∧ (∀ x ∈ f.flatten, x ≤ matMax f) := by
  have hout : _apply_voi_and_photometric voi frame "MONOCHROME1" =
      f.map fun row => row.map fun v => matMax f - (v - matMin f) := by
    unfold _apply_voi_and_photometric
    rw [hf, if_pos rfl]
  refine ⟨?_, ?_, ?_, listMin_mem hne, fun x hx => listMin_le hx,
    listMax_mem hne, fun x hx => le_listMax hx⟩
  · rw [hout, List.length_map, hshape.1]
  · intro i
    rw [← hshape.2 i, hout]
    by_cases hi : i < f.length
    · have hmi : i < (f.map fun row => row.map fun v => matMax f - (v - matMin f)).length := by
        rw [List.length_map]
        exact hi
      rw [List.getD_eq_getElem _ _ hmi, List.getElem_map, List.getD_eq_getElem _ _ hi,
        List.length_map]
    · push_neg at hi
      rw [List.getD_eq_default _ _ (by rw [List.length_map]; exact hi),
        List.getD_eq_default _ _ hi]
  · intro i j hi hj
    have hmi : i < (f.map fun row => row.map fun v => matMax f - (v - matMin f)).length := by
      rw [List.length_map]
      exact hi
    have hmj : j < ((f.getD i []).map fun v => matMax f - (v - matMin f)).length := by
      rw [List.length_map]
      exact hj
    rw [hout, List.getD_eq_getElem _ _ hmi, List.getElem_map, ← List.getD_eq_getElem _ _ hi,
      List.getD_eq_getElem _ _ hmj, List.getElem_map, ← List.getD_eq_getElem _ _ hj]

/-- C9 witness: the inversion theorem on the 1-by-2 frame [[1, 2]] with
the VOI-LUT falling back to the identity. -/
theorem apply_voi_photometric_inverts_witness :
    (_apply_voi_and_photometric (fun _ => none) [[1, 2]] "MONOCHROME1").length =
      ([[1, 2]] : List (List ℚ)).length ∧
    (∀ i : ℕ, ((_apply_voi_and_photometric (fun _ => none) [[1, 2]] "MONOCHROME1").getD i
        []).length = (([[1, 2]] : List (List ℚ)).getD i []).length) ∧
    (∀ i j : ℕ, i < ([[1, 2]] : List (List ℚ)).length →
      j < (([[1, 2]] : List (List ℚ)).getD i []).length →
      ((_apply_voi_and_photometric (fun _ => none) [[1, 2]] "MONOCHROME1").getD i []).getD j 0 =
        matMax [[1, 2]] - ((([[1, 2]] : List (List ℚ)).getD i []).getD j 0 - matMin [[1, 2]])) ∧
    matMin [[1, 2]] ∈ ([[1, 2]] : List (List ℚ)).flatten ∧
    (∀ x ∈ ([[1, 2]] : List (List ℚ)).flatten, matMin [[1, 2]] ≤ x) ∧
    matMax [[1, 2]] ∈ ([[1, 2]] : List (List ℚ)).flatten ∧
    (∀ x ∈ ([[1, 2]] : List (List ℚ)).flatten, x ≤ matMax [[1, 2]]) :=
  apply_voi_photometric_inverts (fun _ => none) [[1, 2]] [[1, 2]] rfl
    ⟨rfl, fun _ => rfl⟩ (by simp)
